import Mathlib

/-!
# CCmdLine: a command-line splitter (CmdLine.h / CmdLine.cpp)

Shallow embedding of the class `CCmdLine` and proofs of its contract.

Modelling conventions
* A `TCHAR*` token (a NUL-terminated character sequence) is a `String`; a
  pointer that may be `NULL` is an `Option String`.
* `std::map<StringType, CCmdParam>` is an association list whose keys are
  pairwise distinct, kept in order of insertion.  Only `clear`, `find`,
  `insert`, `size` and `push_back` through the iterator returned by `find`
  are used by the source, and each of them is modelled below.
* `argc`/`argv` is a `List String`: `argc` is its length, `argv[i]` its
  `i`-th element.  `SplitLine.loop` receives `argv[i..argc-1]`.
* A thrown `(int)0` is `Except.error 0`.
-/

namespace CmdLine

/-! ## Data model -/

/-- Container `CCmdParam`: the argument vector `m_strings` of one switch. -/
structure CCmdParam where
  m_strings : List String
deriving DecidableEq, Repr

/-- Class `CCmdLine`, "actually a map of strings to vectors". -/
abbrev CCmdLine := List (String × CCmdParam)

/-- Keys of the map. -/
def keys (m : CCmdLine) : List String := m.map Prod.fst

/-- All arguments recorded in the map: its groups, one after another. -/
def arguments : CCmdLine → List String
  | [] => []
  | (_, v) :: rest => v.m_strings ++ arguments rest

/-- Method `std::map::clear`. -/
def clear (_m : CCmdLine) : CCmdLine := []

/-- Method `std::map::size`. -/
def size (m : CCmdLine) : Nat := m.length

/-- Method `std::map::find`: the entry stored under `k`; `none` is `end()`. -/
def find : CCmdLine → String → Option CCmdParam
  | [], _ => none
  | (k', v) :: rest, k => if k' = k then some v else find rest k

/-- Method `std::map::insert`: adds the pair unless the key is already there,
in which case the map is left as it is. -/
def insert (m : CCmdLine) (k : String) (v : CCmdParam) : CCmdLine :=
  match find m k with
  | some _ => m
  | none => m ++ [(k, v)]

/-- Effect of `(*theIterator).second.m_strings.push_back(x)` for the iterator
`theIterator = find(k)`: the entry stored under `k` gets `x` appended. -/
def push_back : CCmdLine → String → String → CCmdLine
  | [], _, _ => []
  | (k', v) :: rest, k, x =>
    if k' = k then (k', ⟨v.m_strings ++ [x]⟩) :: rest
    else (k', v) :: push_back rest k x

/-! ## Character helpers of the C runtime -/

/-- C runtime `_tcslen`: number of characters before the terminator. -/
def _tcslen (p : String) : Nat := p.length

/-- C runtime `_istdigit`: decimal digit test. -/
def _istdigit (c : Char) : Bool := c.isDigit

/-- Indexing `pParam[i]` of a NUL-terminated string. -/
def charAt (p : String) (i : Nat) : Char := p.data.getD i (Char.ofNat 0)

/-! ## Member functions -/

/-- Member `CCmdLine::IsSwitch`. -/
def IsSwitch (pParam : Option String) : Bool :=
  match pParam with
  | none => false
  | some p =>
    if _tcslen p ≤ 1 then false
    else if charAt p 0 = '-' then !_istdigit (charAt p 1)
    else false

/-- Body of the `for` loop of `CCmdLine::SplitLine`, run on the remaining
arguments `argv[i..argc-1]` with the local `curParam` and the map. -/
def SplitLine.loop : List String → String → CCmdLine → CCmdLine
  | [], _, m => m
  | a :: rest, curParam, m =>
    if IsSwitch (some a) then
      match rest with
      | [] => SplitLine.loop [] a (insert m a ⟨[]⟩)
      | b :: rest' =>
        if !IsSwitch (some b) then
          SplitLine.loop rest' a (insert m a (if b ≠ "" then ⟨[b]⟩ else ⟨[]⟩))
        else
          SplitLine.loop (b :: rest') a (insert m a ⟨[]⟩)
    else
      match find m curParam with
      | some _ => SplitLine.loop rest curParam (push_back m curParam a)
      | none => SplitLine.loop rest curParam m

/-- Member `CCmdLine::SplitLine`: the new map and the returned `size()`. -/
def SplitLine (self : CCmdLine) (argv : List String) : CCmdLine × Nat :=
  let m := SplitLine.loop (argv.drop 1) "" (clear self)
  (m, size m)

/-- The token occurrences that the groups are expected to hold, stated on the
input alone: every non-switch token of the list, except an empty token that
stands right after a switch.  The flag tells whether the token before the
list is a switch. -/
def expectedArguments : Bool → List String → List String
  | _, [] => []
  | afterSwitch, t :: rest =>
    if IsSwitch (some t) then expectedArguments true rest
    else if afterSwitch = true ∧ t = "" then expectedArguments false rest
    else t :: expectedArguments false rest

/-- Member `CCmdLine::HasSwitch`. -/
def HasSwitch (self : CCmdLine) (pSwitch : String) : Bool :=
  (find self pSwitch).isSome

/-- Member `CCmdLine::GetArgument`. -/
def GetArgument (self : CCmdLine) (pSwitch : String) (iIdx : Nat) : Except Int String :=
  if HasSwitch self pSwitch then
    match find self pSwitch with
    | some e =>
      if h : e.m_strings.length > iIdx then .ok (e.m_strings.get ⟨iIdx, h⟩)
      else .error 0
    | none => .error 0
  else .error 0

/-- Member `CCmdLine::GetSafeArgument`. -/
def GetSafeArgument (self : CCmdLine) (pSwitch : String) (iIdx : Nat)
    (pDefault : Option String) : String :=
  let sRet := match pDefault with
    | some d => d
    | none => ""
  match GetArgument self pSwitch iIdx with
  | .ok v => v
  | .error _ => sRet

/-- Member `CCmdLine::GetArgumentCount`. -/
def GetArgumentCount (self : CCmdLine) (pSwitch : String) : Nat :=
  if HasSwitch self pSwitch then
    match find self pSwitch with
    | some e => e.m_strings.length
    | none => 0
  else 0

/-! ## Facts about the map operations -/

theorem find_eq_none_iff (m : CCmdLine) (k : String) :
    find m k = none ↔ k ∉ keys m := by
  induction m with
  | nil => simp [find, keys]
  | cons e rest ih =>
    obtain ⟨k', v⟩ := e
    by_cases h : k' = k
    · simp [find, keys, h]
    · have h' : ¬ k = k' := fun e => h e.symm
      simpa [find, keys, h, h'] using ih

theorem find_some_mem {m : CCmdLine} {k : String} {v : CCmdParam}
    (h : find m k = some v) : (k, v) ∈ m := by
  induction m with
  | nil => simp [find] at h
  | cons e rest ih =>
    obtain ⟨k', v'⟩ := e
    by_cases hk : k' = k
    · simp [find, hk] at h
      simp [hk, h]
    · simp [find, hk] at h
      exact List.mem_cons_of_mem _ (ih h)

theorem mem_keys_of_mem {m : CCmdLine} {k : String} {v : CCmdParam}
    (h : (k, v) ∈ m) : k ∈ keys m :=
  List.mem_map.mpr ⟨(k, v), h, rfl⟩

theorem find_of_mem_nodup {m : CCmdLine} {k : String} {v : CCmdParam}
    (hnd : (keys m).Nodup) (h : (k, v) ∈ m) : find m k = some v := by
  induction m with
  | nil => simp at h
  | cons e rest ih =>
    obtain ⟨k', v'⟩ := e
    simp only [keys, List.map_cons, List.nodup_cons] at hnd
    rcases List.mem_cons.mp h with heq | hin
    · cases heq
      simp [find]
    · have hne : k' ≠ k := by
        rintro rfl
        exact hnd.1 (mem_keys_of_mem hin)
      simp only [find, hne, if_false]
      exact ih hnd.2 hin

theorem find_isSome_iff (m : CCmdLine) (k : String) :
    (find m k).isSome = true ↔ k ∈ keys m := by
  rw [← not_iff_not, ← find_eq_none_iff]
  cases find m k <;> simp

theorem keys_insert (m : CCmdLine) (k : String) (v : CCmdParam) :
    keys (insert m k v) = if k ∈ keys m then keys m else keys m ++ [k] := by
  unfold insert
  cases h : find m k with
  | none =>
    have := (find_eq_none_iff m k).mp h
    rw [if_neg this]
    simp [keys]
  | some e =>
    have : k ∈ keys m := (find_isSome_iff m k).mp (by simp [h])
    simp [this]

theorem find_append_singleton (m : CCmdLine) (k s : String) (v : CCmdParam) :
    find (m ++ [(k, v)]) s =
      match find m s with
      | some e => some e
      | none => if k = s then some v else none := by
  induction m with
  | nil => simp [find]
  | cons e rest ih =>
    obtain ⟨k', v'⟩ := e
    by_cases h : k' = s
    · simp [find, h]
    · simp [find, h, ih]

theorem find_insert (m : CCmdLine) (k s : String) (v : CCmdParam) :
    find (insert m k v) s =
      match find m s with
      | some e => some e
      | none => if k = s then some v else none := by
  unfold insert
  cases h : find m k with
  | none => exact find_append_singleton m k s v
  | some e =>
    cases hs : find m s with
    | some e' => simp [hs]
    | none =>
      have : k ≠ s := by
        rintro rfl
        rw [h] at hs
        cases hs
      simp [hs, this]

theorem keys_push_back (m : CCmdLine) (k x : String) :
    keys (push_back m k x) = keys m := by
  induction m with
  | nil => rfl
  | cons e rest ih =>
    obtain ⟨k', v'⟩ := e
    by_cases h : k' = k
    · simp [push_back, keys, h]
    · simp only [keys] at ih
      simp [push_back, keys, h, ih]

theorem find_push_back (m : CCmdLine) (c x s : String) :
    find (push_back m c x) s =
      if c = s then (find m s).map (fun e => ⟨e.m_strings ++ [x]⟩) else find m s := by
  induction m with
  | nil => simp [push_back, find]
  | cons e rest ih =>
    obtain ⟨k', v'⟩ := e
    by_cases h : k' = c
    · subst h
      by_cases hs : k' = s
      · simp [push_back, find, hs]
      · simp [push_back, find, hs]
    · by_cases hs : k' = s
      · subst hs
        have : ¬ c = k' := fun e => h e.symm
        simp [push_back, find, h, this]
      · simp [push_back, find, h, hs, ih]

theorem push_back_of_find_none {m : CCmdLine} {k : String} (x : String)
    (h : find m k = none) : push_back m k x = m := by
  induction m with
  | nil => rfl
  | cons e rest ih =>
    obtain ⟨k', v'⟩ := e
    by_cases hk : k' = k
    · simp [find, hk] at h
    · simp only [find, hk, if_false] at h
      simp [push_back, hk, ih h]

/-! ## Unfolding the loop -/

theorem loop_nil (cur : String) (m : CCmdLine) : SplitLine.loop [] cur m = m := by
  simp [SplitLine.loop]

theorem loop_arg {a : String} (h : IsSwitch (some a) = false) (rest : List String)
    (cur : String) (m : CCmdLine) :
    SplitLine.loop (a :: rest) cur m = SplitLine.loop rest cur (push_back m cur a) := by
  cases hf : find m cur with
  | some e => cases rest <;> simp [SplitLine.loop, h, hf]
  | none => cases rest <;> simp [SplitLine.loop, h, hf, push_back_of_find_none a hf]

theorem loop_switch_last {a : String} (h : IsSwitch (some a) = true)
    (cur : String) (m : CCmdLine) :
    SplitLine.loop [a] cur m = insert m a ⟨[]⟩ := by
  simp [SplitLine.loop, h]

theorem loop_switch_arg {a b : String} (ha : IsSwitch (some a) = true)
    (hb : IsSwitch (some b) = false) (rest : List String) (cur : String) (m : CCmdLine) :
    SplitLine.loop (a :: b :: rest) cur m =
      SplitLine.loop rest a (insert m a (if b ≠ "" then ⟨[b]⟩ else ⟨[]⟩)) := by
  simp [SplitLine.loop, ha, hb]

theorem loop_switch_switch {a b : String} (ha : IsSwitch (some a) = true)
    (hb : IsSwitch (some b) = true) (rest : List String) (cur : String) (m : CCmdLine) :
    SplitLine.loop (a :: b :: rest) cur m =
      SplitLine.loop (b :: rest) a (insert m a ⟨[]⟩) := by
  simp [SplitLine.loop, ha, hb]

/-- Induction along the way the loop consumes its input: one token when it
is an argument or a switch with no argument after it, two tokens when a
switch takes the next token as its first argument. -/
theorem tokens_induction {P : List String → Prop}
    (nil : P [])
    (arg : ∀ a rest, IsSwitch (some a) = false → P rest → P (a :: rest))
    (last : ∀ a, IsSwitch (some a) = true → P [a])
    (switch_arg : ∀ a b rest, IsSwitch (some a) = true → IsSwitch (some b) = false →
      P rest → P (a :: b :: rest))
    (switch_switch : ∀ a b rest, IsSwitch (some a) = true → IsSwitch (some b) = true →
      P (b :: rest) → P (a :: b :: rest))
    (ts : List String) : P ts := by
  have main : ∀ n (ts : List String), ts.length ≤ n → P ts := by
    intro n
    induction n with
    | zero =>
      intro ts h
      cases ts with
      | nil => exact nil
      | cons a r => simp at h
    | succ n ih =>
      intro ts h
      match ts, h with
      | [], _ => exact nil
      | a :: rest, h =>
        have hr : rest.length ≤ n := by simpa using h
        cases ha : IsSwitch (some a) with
        | false => exact arg a rest ha (ih rest hr)
        | true =>
          match rest, hr with
          | [], _ => exact last a ha
          | b :: rest', hr =>
            cases hb : IsSwitch (some b) with
            | false =>
              refine switch_arg a b rest' ha hb (ih rest' ?_)
              simp at hr
              omega
            | true => exact switch_switch a b rest' ha hb (ih (b :: rest') hr)
  exact main ts.length ts le_rfl

/-! ## Invariants of the loop -/

theorem nodup_keys_insert {m : CCmdLine} (h : (keys m).Nodup) (k : String) (v : CCmdParam) :
    (keys (insert m k v)).Nodup := by
  rw [keys_insert]
  split
  · exact h
  · rename_i hk
    exact List.Nodup.append h (List.nodup_singleton k) (by simpa using hk)

theorem mem_keys_insert (m : CCmdLine) (k s : String) (v : CCmdParam) :
    s ∈ keys (insert m k v) ↔ s ∈ keys m ∨ s = k := by
  rw [keys_insert]
  split
  · rename_i hk
    constructor
    · exact Or.inl
    · rintro (h | rfl)
      · exact h
      · exact hk
  · simp

theorem loop_nodup_keys (ts : List String) :
    ∀ (cur : String) (m : CCmdLine), (keys m).Nodup →
      (keys (SplitLine.loop ts cur m)).Nodup := by
  induction ts using tokens_induction with
  | nil => intro cur m h; simpa [loop_nil] using h
  | arg a rest ha ih =>
    intro cur m h
    rw [loop_arg ha]
    exact ih _ _ (by rw [keys_push_back]; exact h)
  | last a ha =>
    intro cur m h
    rw [loop_switch_last ha]
    exact nodup_keys_insert h _ _
  | switch_arg a b rest ha hb ih =>
    intro cur m h
    rw [loop_switch_arg ha hb]
    exact ih _ _ (nodup_keys_insert h _ _)
  | switch_switch a b rest ha hb ih =>
    intro cur m h
    rw [loop_switch_switch ha hb]
    exact ih _ _ (nodup_keys_insert h _ _)

theorem loop_mem_keys (ts : List String) :
    ∀ (cur : String) (m : CCmdLine) (s : String),
      s ∈ keys (SplitLine.loop ts cur m) ↔
        s ∈ keys m ∨ (s ∈ ts ∧ IsSwitch (some s) = true) := by
  induction ts using tokens_induction with
  | nil => intro cur m s; simp [loop_nil]
  | arg a rest ha ih =>
    intro cur m s
    rw [loop_arg ha, ih, keys_push_back]
    constructor
    · rintro (h | ⟨h, hs⟩)
      · exact Or.inl h
      · exact Or.inr ⟨List.mem_cons_of_mem _ h, hs⟩
    · rintro (h | ⟨h, hs⟩)
      · exact Or.inl h
      · rcases List.mem_cons.mp h with rfl | h
        · rw [ha] at hs; cases hs
        · exact Or.inr ⟨h, hs⟩
  | last a ha =>
    intro cur m s
    rw [loop_switch_last ha, mem_keys_insert]
    constructor
    · rintro (h | rfl)
      · exact Or.inl h
      · exact Or.inr ⟨List.mem_singleton_self _, ha⟩
    · rintro (h | ⟨h, _⟩)
      · exact Or.inl h
      · exact Or.inr (List.mem_singleton.mp h)
  | switch_arg a b rest ha hb ih =>
    intro cur m s
    rw [loop_switch_arg ha hb, ih, mem_keys_insert]
    constructor
    · rintro ((h | rfl) | ⟨h, hs⟩)
      · exact Or.inl h
      · exact Or.inr ⟨List.mem_cons_self _ _, ha⟩
      · exact Or.inr ⟨List.mem_cons_of_mem _ (List.mem_cons_of_mem _ h), hs⟩
    · rintro (h | ⟨h, hs⟩)
      · exact Or.inl (Or.inl h)
      · rcases List.mem_cons.mp h with rfl | h
        · exact Or.inl (Or.inr rfl)
        · rcases List.mem_cons.mp h with rfl | h
          · rw [hb] at hs; cases hs
          · exact Or.inr ⟨h, hs⟩
  | switch_switch a b rest ha hb ih =>
    intro cur m s
    rw [loop_switch_switch ha hb, ih, mem_keys_insert]
    constructor
    · rintro ((h | rfl) | ⟨h, hs⟩)
      · exact Or.inl h
      · exact Or.inr ⟨List.mem_cons_self _ _, ha⟩
      · exact Or.inr ⟨List.mem_cons_of_mem _ h, hs⟩
    · rintro (h | ⟨h, hs⟩)
      · exact Or.inl (Or.inl h)
      · rcases List.mem_cons.mp h with rfl | h
        · exact Or.inl (Or.inr rfl)
        · exact Or.inr ⟨h, hs⟩

theorem loop_leading_args (pre : List String)
    (hpre : ∀ t ∈ pre, IsSwitch (some t) = false) (ts : List String)
    (cur : String) (m : CCmdLine) (hcur : find m cur = none) :
    SplitLine.loop (pre ++ ts) cur m = SplitLine.loop ts cur m := by
  induction pre with
  | nil => rfl
  | cons a rest ih =>
    have ha : IsSwitch (some a) = false := hpre a (List.mem_cons_self _ _)
    rw [List.cons_append, loop_arg ha, push_back_of_find_none a hcur]
    exact ih (fun t ht => hpre t (List.mem_cons_of_mem _ ht))

theorem splitLine_nodup_keys (T : CCmdLine) (argv : List String) :
    (keys (SplitLine T argv).1).Nodup :=
  loop_nodup_keys _ _ _ (by simp [clear, keys])

/-! ## The group recorded for a switch -/

theorem loop_find_after (s : String) (rest : List String) :
    ∀ (cur : String) (m : CCmdLine) (g : List String),
      find m s = some ⟨g⟩ → s ∉ rest →
      find (SplitLine.loop rest cur m) s =
        some ⟨g ++ (if cur = s then rest.takeWhile (fun t => !IsSwitch (some t)) else [])⟩ := by
  induction rest using tokens_induction with
  | nil => intro cur m g hg _; simp [loop_nil, hg]
  | arg a rest ha ih =>
    intro cur m g hg hs
    have hs' : s ∉ rest := fun h => hs (List.mem_cons_of_mem _ h)
    rw [loop_arg ha]
    by_cases hc : cur = s
    · have hf : find (push_back m cur a) s = some ⟨g ++ [a]⟩ := by
        rw [find_push_back, if_pos hc, hg]; rfl
      rw [ih cur _ _ hf hs']
      simp [hc, ha, List.takeWhile_cons]
    · have hf : find (push_back m cur a) s = some ⟨g⟩ := by
        rw [find_push_back, if_neg hc, hg]
      rw [ih cur _ _ hf hs']
      simp [hc]
  | last a ha =>
    intro cur m g hg _
    rw [loop_switch_last ha, find_insert, hg]
    simp [List.takeWhile_cons, ha]
  | switch_arg a b rest ha hb ih =>
    intro cur m g hg hs
    have hne : a ≠ s := fun h => hs (h ▸ List.mem_cons_self _ _)
    have hs' : s ∉ rest :=
      fun h => hs (List.mem_cons_of_mem _ (List.mem_cons_of_mem _ h))
    rw [loop_switch_arg ha hb]
    have hf : find (insert m a (if b ≠ "" then ⟨[b]⟩ else ⟨[]⟩)) s = some ⟨g⟩ := by
      rw [find_insert, hg]
    rw [ih a _ _ hf hs']
    simp [hne, List.takeWhile_cons, ha]
  | switch_switch a b rest ha hb ih =>
    intro cur m g hg hs
    have hne : a ≠ s := fun h => hs (h ▸ List.mem_cons_self _ _)
    have hs' : s ∉ b :: rest := fun h => hs (List.mem_cons_of_mem _ h)
    rw [loop_switch_switch ha hb]
    have hf : find (insert m a ⟨[]⟩) s = some ⟨g⟩ := by
      rw [find_insert, hg]
    rw [ih a _ _ hf hs']
    simp [hne, List.takeWhile_cons, ha]

theorem loop_find_at (s : String) (hsw : IsSwitch (some s) = true) (post : List String)
    (hs : s ∉ post) (hne : "" ∉ post) (cur : String) (m : CCmdLine)
    (hm : find m s = none) :
    find (SplitLine.loop (s :: post) cur m) s =
      some ⟨post.takeWhile (fun t => !IsSwitch (some t))⟩ := by
  match post, hs, hne with
  | [], _, _ =>
    rw [loop_switch_last hsw, find_insert, hm]
    simp
  | b :: rest, hs, hne =>
    have hs' : s ∉ rest := fun h => hs (List.mem_cons_of_mem _ h)
    cases hb : IsSwitch (some b) with
    | false =>
      have hbne : b ≠ "" := fun h => hne (h ▸ List.mem_cons_self _ _)
      rw [loop_switch_arg hsw hb]
      have hf : find (insert m s (if b ≠ "" then ⟨[b]⟩ else ⟨[]⟩)) s = some ⟨[b]⟩ := by
        rw [find_insert, hm]
        simp [hbne]
      rw [loop_find_after s rest s _ _ hf hs']
      simp [List.takeWhile_cons, hb]
    | true =>
      rw [loop_switch_switch hsw hb]
      have hf : find (insert m s ⟨[]⟩) s = some ⟨[]⟩ := by
        rw [find_insert, hm]
        simp
      rw [loop_find_after s (b :: rest) s _ _ hf hs]
      simp

theorem loop_find_group (s : String) (hsw : IsSwitch (some s) = true) (post : List String)
    (hs : s ∉ post) (hne : "" ∉ post) (pre : List String) :
    ∀ (cur : String) (m : CCmdLine), find m s = none → s ∉ pre →
      find (SplitLine.loop (pre ++ s :: post) cur m) s =
        some ⟨post.takeWhile (fun t => !IsSwitch (some t))⟩ := by
  induction pre using tokens_induction with
  | nil => intro cur m hm _; exact loop_find_at s hsw post hs hne cur m hm
  | arg a rest ha ih =>
    intro cur m hm hp
    rw [List.cons_append, loop_arg ha]
    refine ih cur _ ?_ (fun h => hp (List.mem_cons_of_mem _ h))
    rw [find_eq_none_iff, keys_push_back, ← find_eq_none_iff]
    exact hm
  | last a ha =>
    intro cur m hm hp
    have hne' : a ≠ s := fun h => hp (h ▸ List.mem_cons_self _ _)
    rw [List.cons_append, List.nil_append, loop_switch_switch ha hsw]
    refine loop_find_at s hsw post hs hne a _ ?_
    rw [find_insert, hm]
    simp [hne']
  | switch_arg a b rest ha hb ih =>
    intro cur m hm hp
    have hne' : a ≠ s := fun h => hp (h ▸ List.mem_cons_self _ _)
    rw [List.cons_append, List.cons_append, loop_switch_arg ha hb]
    refine ih a _ ?_ (fun h => hp (List.mem_cons_of_mem _ (List.mem_cons_of_mem _ h)))
    rw [find_insert, hm]
    simp [hne']
  | switch_switch a b rest ha hb ih =>
    intro cur m hm hp
    have hne' : a ≠ s := fun h => hp (h ▸ List.mem_cons_self _ _)
    rw [List.cons_append, List.cons_append, loop_switch_switch ha hb]
    refine ih a _ ?_ (fun h => hp (List.mem_cons_of_mem _ h))
    rw [find_insert, hm]
    simp [hne']

/-! ## Lookups on a map whose keys are distinct -/

theorem getArgument_of_not_mem {m : CCmdLine} {s : String} (h : s ∉ keys m) (i : Nat) :
    GetArgument m s i = .error 0 := by
  have hf : find m s = none := (find_eq_none_iff m s).mpr h
  simp [GetArgument, HasSwitch, hf]

theorem getArgument_of_find {m : CCmdLine} {s : String} {g : CCmdParam}
    (hf : find m s = some g) (i : Nat) :
    GetArgument m s i =
      if h : i < g.m_strings.length then .ok (g.m_strings.get ⟨i, h⟩) else .error 0 := by
  simp [GetArgument, HasSwitch, hf]

theorem getArgumentCount_of_find {m : CCmdLine} {s : String} {g : CCmdParam}
    (hf : find m s = some g) : GetArgumentCount m s = g.m_strings.length := by
  simp [GetArgumentCount, HasSwitch, hf]

theorem getArgumentCount_of_not_mem {m : CCmdLine} {s : String} (h : s ∉ keys m) :
    GetArgumentCount m s = 0 := by
  have hf : find m s = none := (find_eq_none_iff m s).mpr h
  simp [GetArgumentCount, HasSwitch, hf]

/-! ## The claims -/

/-- C1. `IsSwitch` holds of a token exactly when the token has at least two
characters, starts with a hyphen and its second character is not one of the
decimal digits; so `-x` is a switch, and `-55`, `-`, the empty token and an
absent token are not. -/
theorem C1_IsSwitch_classification :
    (∀ t : String, IsSwitch (some t) = true ↔
      (2 ≤ t.length ∧ t.data[0]? = some '-' ∧
        ∃ c, t.data[1]? = some c ∧ ¬ ('0' ≤ c ∧ c ≤ '9'))) ∧
    IsSwitch (some "-x") = true ∧ IsSwitch (some "-55") = false ∧
    IsSwitch (some "-") = false ∧ IsSwitch (some "") = false ∧
    IsSwitch none = false := by
  refine ⟨?_, by decide, by decide, by decide, by decide, rfl⟩
  intro t
  rcases t with ⟨cs⟩
  match cs with
  | [] => simp [IsSwitch, _tcslen, String.length]
  | [a] => simp [IsSwitch, _tcslen, String.length]
  | a :: b :: rest =>
    simp [IsSwitch, _tcslen, String.length, charAt, _istdigit, Char.isDigit]
    intro _
    simp [Char.le_def, Char.lt_def]
    have key : b.val < 48 ↔ ¬ 48 ≤ b.val := by
      show b.val.val < (48 : UInt32).val ↔ ¬ (48 : UInt32).val ≤ b.val.val
      exact not_le.symm
    rw [key]
    tauto

/-- C2. When no token after the program name is empty and no switch text is
repeated, `SplitLine` records for each switch occurrence `s` exactly the
longest run of non-switch tokens that follows it, and every key of the table
is a switch of the input.  The sample line
`app -a p1 p2 p3 -b p4 -c -d p5` gives `-a -> [p1,p2,p3]`, `-b -> [p4]`,
`-c -> []`, `-d -> [p5]` and nothing else. -/
theorem C2_grouping :
    (∀ (T : CCmdLine) (prog : String) (ts : List String),
      "" ∉ ts → (ts.filter (fun t => IsSwitch (some t))).Nodup →
      (∀ (pre post : List String) (s : String), ts = pre ++ s :: post →
        IsSwitch (some s) = true →
        ∀ g, (s, g) ∈ (SplitLine T (prog :: ts)).1 ↔
          g = ⟨post.takeWhile (fun t => !IsSwitch (some t))⟩) ∧
      (∀ k ∈ keys (SplitLine T (prog :: ts)).1, k ∈ ts ∧ IsSwitch (some k) = true)) ∧
    (SplitLine [] ["app", "-a", "p1", "p2", "p3", "-b", "p4", "-c", "-d", "p5"]).1 =
      [("-a", ⟨["p1", "p2", "p3"]⟩), ("-b", ⟨["p4"]⟩), ("-c", ⟨[]⟩), ("-d", ⟨["p5"]⟩)] := by
  refine ⟨?_, by decide⟩
  intro T prog ts hne hnd
  constructor
  · intro pre post s hts hsw g
    subst hts
    rw [List.filter_append, List.filter_cons_of_pos (by simpa using hsw)] at hnd
    have hnd' := List.nodup_append.mp hnd
    have hpre : s ∉ pre := by
      intro h
      exact hnd'.2.2 (List.mem_filter.mpr ⟨h, by simpa using hsw⟩) (List.mem_cons_self _ _)
    have hpost : s ∉ post := by
      intro h
      exact (List.nodup_cons.mp hnd'.2.1).1 (List.mem_filter.mpr ⟨h, by simpa using hsw⟩)
    have hne' : "" ∉ post := fun h =>
      hne (List.mem_append_right _ (List.mem_cons_of_mem _ h))
    have hf : find (SplitLine T (prog :: (pre ++ s :: post))).1 s =
        some ⟨post.takeWhile (fun t => !IsSwitch (some t))⟩ :=
      loop_find_group s hsw post hpost hne' pre "" (clear T) rfl hpre
    constructor
    · intro hmem
      have := find_of_mem_nodup (splitLine_nodup_keys T _) hmem
      rw [hf] at this
      exact (Option.some.inj this).symm
    · rintro rfl
      exact find_some_mem hf
  · intro k hk
    have := (loop_mem_keys ts "" (clear T) k).mp hk
    simpa [clear, keys] using this

/-- C2, at the sample line: the hypotheses hold there and `-b` owns `[p4]`. -/
theorem C2_grouping_witness :
    ("" ∉ ["-a", "p1", "p2", "p3", "-b", "p4", "-c", "-d", "p5"] ∧
      (["-a", "p1", "p2", "p3", "-b", "p4", "-c", "-d", "p5"].filter
        (fun t => IsSwitch (some t))).Nodup) ∧
    ∀ g, ("-b", g) ∈
        (SplitLine [] ("app" :: ["-a", "p1", "p2", "p3", "-b", "p4", "-c", "-d", "p5"])).1 ↔
      g = ⟨["p4", "-c", "-d", "p5"].takeWhile (fun t => !IsSwitch (some t))⟩ :=
  ⟨⟨by decide, by decide⟩,
    (C2_grouping.1 [] "app" ["-a", "p1", "p2", "p3", "-b", "p4", "-c", "-d", "p5"]
      (by decide) (by decide)).1 ["-a", "p1", "p2", "p3"] ["p4", "-c", "-d", "p5"] "-b"
      rfl (by decide)⟩

/-- C3. On a table produced by `SplitLine`, `GetArgument(s, i)` throws exactly
when `s` is not a key or `i` is not below the length of the group of `s`;
otherwise it returns the element of index `i` of that group. -/
theorem C3_GetArgument_fails_exactly (T : CCmdLine) (argv : List String) (s : String)
    (i : Nat) :
    (GetArgument (SplitLine T argv).1 s i = .error 0 ↔
      (s ∉ keys (SplitLine T argv).1 ∨
        ∃ g, (s, g) ∈ (SplitLine T argv).1 ∧ g.m_strings.length ≤ i)) ∧
    (∀ g, (s, g) ∈ (SplitLine T argv).1 → ∀ h : i < g.m_strings.length,
      GetArgument (SplitLine T argv).1 s i = .ok (g.m_strings.get ⟨i, h⟩)) := by
  have hnd := splitLine_nodup_keys T argv
  constructor
  · constructor
    · intro herr
      by_cases hk : s ∈ keys (SplitLine T argv).1
      · right
        obtain ⟨g, hg⟩ := Option.isSome_iff_exists.mp ((find_isSome_iff _ _).mpr hk)
        refine ⟨g, find_some_mem hg, ?_⟩
        rw [getArgument_of_find hg] at herr
        by_contra hlt
        rw [dif_pos (not_le.mp hlt)] at herr
        cases herr
      · exact Or.inl hk
    · rintro (hk | ⟨g, hg, hlen⟩)
      · exact getArgument_of_not_mem hk i
      · rw [getArgument_of_find (find_of_mem_nodup hnd hg), dif_neg (not_lt.mpr hlen)]
  · intro g hg h
    rw [getArgument_of_find (find_of_mem_nodup hnd hg), dif_pos h]

/-- C4. `GetSafeArgument` always returns a text: the result of `GetArgument`
when that lookup succeeds, the supplied default when it throws.  On the table
of the sample line, `(-b,1,zz)` gives `zz`, `(-a,0,zz)` gives `p1`,
`(-a,1,zz)` gives `p2` and `(-b,0,zz)` gives `p4`. -/
theorem C4_GetSafeArgument_default :
    (∀ (m : CCmdLine) (s : String) (i : Nat) (d : String),
      (∀ v, GetArgument m s i = .ok v → GetSafeArgument m s i (some d) = v) ∧
      (∀ e, GetArgument m s i = .error e → GetSafeArgument m s i (some d) = d)) ∧
    GetSafeArgument
      (SplitLine [] ["app", "-a", "p1", "p2", "p3", "-b", "p4", "-c", "-d", "p5"]).1
      "-b" 1 (some "zz") = "zz" ∧
    GetSafeArgument
      (SplitLine [] ["app", "-a", "p1", "p2", "p3", "-b", "p4", "-c", "-d", "p5"]).1
      "-a" 0 (some "zz") = "p1" ∧
    GetSafeArgument
      (SplitLine [] ["app", "-a", "p1", "p2", "p3", "-b", "p4", "-c", "-d", "p5"]).1
      "-a" 1 (some "zz") = "p2" ∧
    GetSafeArgument
      (SplitLine [] ["app", "-a", "p1", "p2", "p3", "-b", "p4", "-c", "-d", "p5"]).1
      "-b" 0 (some "zz") = "p4" := by
  refine ⟨?_, by decide, by decide, by decide, by decide⟩
  intro m s i d
  constructor
  · intro v hv
    simp [GetSafeArgument, hv]
  · intro e he
    simp [GetSafeArgument, he]

/-- C5. On every table (a map, so with distinct keys) `GetArgumentCount(s)` is
the length of the group of `s` when `s` is a key and `0` when it is not; an
absent switch and a present switch without arguments give the same count. -/
theorem C5_GetArgumentCount (m : CCmdLine) (hnd : (keys m).Nodup) (s : String) :
    (∀ g, (s, g) ∈ m → GetArgumentCount m s = g.m_strings.length) ∧
    (s ∉ keys m → GetArgumentCount m s = 0) ∧
    (s ∉ keys m → ∀ s', (s', (⟨[]⟩ : CCmdParam)) ∈ m →
      GetArgumentCount m s = GetArgumentCount m s') := by
  refine ⟨?_, getArgumentCount_of_not_mem, ?_⟩
  · intro g hg
    exact getArgumentCount_of_find (find_of_mem_nodup hnd hg)
  · intro hs s' hs'
    rw [getArgumentCount_of_not_mem hs,
      getArgumentCount_of_find (find_of_mem_nodup hnd hs')]
    rfl

/-- C5, at the table of the sample line: its keys are distinct, the absent
`-z` counts `0`, and so does the present `-c`. -/
theorem C5_GetArgumentCount_witness :
    (keys (SplitLine [] ["app", "-a", "p1", "p2", "p3", "-b", "p4", "-c", "-d", "p5"]).1).Nodup ∧
    GetArgumentCount
      (SplitLine [] ["app", "-a", "p1", "p2", "p3", "-b", "p4", "-c", "-d", "p5"]).1 "-z" =
    GetArgumentCount
      (SplitLine [] ["app", "-a", "p1", "p2", "p3", "-b", "p4", "-c", "-d", "p5"]).1 "-c" :=
  ⟨by decide,
    (C5_GetArgumentCount _ (by decide) "-z").2.2 (by decide) "-c" (by decide)⟩

/-- C6. After `SplitLine`, `HasSwitch(s)` holds exactly when `s` is one of the
tokens after the program name and `IsSwitch(s)` holds; on the sample line
`HasSwitch(-a)` is true and `HasSwitch(-z)` is false. -/
theorem C6_HasSwitch_membership :
    (∀ (T : CCmdLine) (prog : String) (ts : List String) (s : String),
      HasSwitch (SplitLine T (prog :: ts)).1 s = true ↔
        (s ∈ ts ∧ IsSwitch (some s) = true)) ∧
    HasSwitch
      (SplitLine [] ["app", "-a", "p1", "p2", "p3", "-b", "p4", "-c", "-d", "p5"]).1
      "-a" = true ∧
    HasSwitch
      (SplitLine [] ["app", "-a", "p1", "p2", "p3", "-b", "p4", "-c", "-d", "p5"]).1
      "-z" = false := by
  refine ⟨?_, by decide, by decide⟩
  intro T prog ts s
  unfold HasSwitch
  rw [find_isSome_iff]
  have := loop_mem_keys ts "" (clear T) s
  simpa [clear, keys] using this

/-- C7. `SplitLine` returns the number of distinct switch texts among the
tokens after the program name, which is the number of keys of the table; it
returns `0` exactly when none of those tokens is a switch. -/
theorem C7_SplitLine_return (T : CCmdLine) (prog : String) (ts : List String) :
    (SplitLine T (prog :: ts)).2 =
      ((ts.filter (fun t => IsSwitch (some t))).dedup).length ∧
    (SplitLine T (prog :: ts)).2 = (keys (SplitLine T (prog :: ts)).1).length ∧
    ((SplitLine T (prog :: ts)).2 = 0 ↔ ∀ t ∈ ts, IsSwitch (some t) = false) := by
  have hsize : (SplitLine T (prog :: ts)).2 = (keys (SplitLine T (prog :: ts)).1).length := by
    simp [SplitLine, size, keys]
  have hmem : ∀ s, s ∈ keys (SplitLine T (prog :: ts)).1 ↔
      s ∈ (ts.filter (fun t => IsSwitch (some t))).dedup := by
    intro s
    have := loop_mem_keys ts "" (clear T) s
    rw [List.mem_dedup, List.mem_filter]
    simpa [clear, keys] using this
  have hperm := (List.perm_ext_iff_of_nodup (splitLine_nodup_keys T (prog :: ts))
    (List.nodup_dedup _)).mpr hmem
  refine ⟨hsize.trans hperm.length_eq, hsize, ?_⟩
  rw [hsize, List.length_eq_zero]
  constructor
  · intro h t ht
    cases hsw : IsSwitch (some t) with
    | false => rfl
    | true =>
      have : t ∈ keys (SplitLine T (prog :: ts)).1 :=
        (hmem t).mpr (List.mem_dedup.mpr (List.mem_filter.mpr ⟨ht, by simpa using hsw⟩))
      rw [h] at this
      cases this
  · intro h
    apply List.eq_nil_iff_forall_not_mem.mpr
    intro s hs
    have := List.mem_filter.mp (List.mem_dedup.mp ((hmem s).mp hs))
    have h1 := h s this.1
    have h2 : IsSwitch (some s) = true := by simpa using this.2
    rw [h1] at h2
    cases h2

/-- C8. Tokens that stand before the first switch are discarded: putting a
list of non-switch tokens in front of the tokens changes neither the table nor
the returned count; `a b -x c` gives the single entry `-x -> [c]`. -/
theorem C8_leading_arguments_discarded :
    (∀ (T : CCmdLine) (prog : String) (pre ts : List String),
      (∀ t ∈ pre, IsSwitch (some t) = false) →
      SplitLine T (prog :: (pre ++ ts)) = SplitLine T (prog :: ts)) ∧
    (SplitLine [] ["app", "a", "b", "-x", "c"]).1 = [("-x", ⟨["c"]⟩)] := by
  refine ⟨?_, by decide⟩
  intro T prog pre ts hpre
  have h : SplitLine.loop (pre ++ ts) "" (clear T) = SplitLine.loop ts "" (clear T) :=
    loop_leading_args pre hpre ts "" (clear T) rfl
  simp [SplitLine, h]

/-- C8, at `a b` put in front of `-x c`. -/
theorem C8_leading_arguments_discarded_witness :
    (∀ t ∈ ["a", "b"], IsSwitch (some t) = false) ∧
    SplitLine [] ("app" :: (["a", "b"] ++ ["-x", "c"])) = SplitLine [] ("app" :: ["-x", "c"]) :=
  ⟨by decide, C8_leading_arguments_discarded.1 [] "app" ["a", "b"] ["-x", "c"] (by decide)⟩

/-- C9. `SplitLine` rebuilds the table from nothing: its table and returned
count do not depend on the table it starts from, so running it again on its
own result with the same input gives the same table and count. -/
theorem C9_full_rebuild (T : CCmdLine) (v : List String) :
    SplitLine T v = SplitLine [] v ∧
    SplitLine (SplitLine T v).1 v = SplitLine T v :=
  ⟨rfl, rfl⟩

/-- C10. On a table produced by `SplitLine`, for a key `name` with
`count = GetArgumentCount(name)`: `GetArgument(name, i)` succeeds for every
`i < count`, and `GetArgument(name, count)` throws. -/
theorem C10_count_lookup_round_trip (T : CCmdLine) (argv : List String) (name : String)
    (hkey : name ∈ keys (SplitLine T argv).1) :
    (∀ i, i < GetArgumentCount (SplitLine T argv).1 name →
      ∃ v, GetArgument (SplitLine T argv).1 name i = .ok v) ∧
    GetArgument (SplitLine T argv).1 name (GetArgumentCount (SplitLine T argv).1 name) =
      .error 0 := by
  obtain ⟨g, hg⟩ := Option.isSome_iff_exists.mp ((find_isSome_iff _ _).mpr hkey)
  rw [getArgumentCount_of_find hg]
  constructor
  · intro i hi
    exact ⟨_, by rw [getArgument_of_find hg, dif_pos hi]⟩
  · rw [getArgument_of_find hg, dif_neg (lt_irrefl _)]

/-- C10, at the key `-a` of the sample line, whose count is `3`. -/
theorem C10_count_lookup_round_trip_witness :
    "-a" ∈ keys (SplitLine [] ["app", "-a", "p1", "p2", "p3", "-b", "p4", "-c", "-d", "p5"]).1 ∧
    ((∀ i, i < GetArgumentCount
          (SplitLine [] ["app", "-a", "p1", "p2", "p3", "-b", "p4", "-c", "-d", "p5"]).1 "-a" →
        ∃ v, GetArgument
          (SplitLine [] ["app", "-a", "p1", "p2", "p3", "-b", "p4", "-c", "-d", "p5"]).1 "-a" i =
            .ok v) ∧
      GetArgument
        (SplitLine [] ["app", "-a", "p1", "p2", "p3", "-b", "p4", "-c", "-d", "p5"]).1 "-a"
        (GetArgumentCount
          (SplitLine [] ["app", "-a", "p1", "p2", "p3", "-b", "p4", "-c", "-d", "p5"]).1 "-a") =
        .error 0) :=
  ⟨by decide, C10_count_lookup_round_trip [] _ "-a" (by decide)⟩

/-! ## Further facts about the loop -/

theorem insert_nil (k : String) (v : CCmdParam) : insert [] k v = [(k, v)] := by
  simp [insert, find]

theorem insert_same (k : String) (v w : CCmdParam) (rest : CCmdLine) :
    insert ((k, v) :: rest) k w = (k, v) :: rest := by
  simp [insert, find]

theorem push_back_same (k x : String) (v : CCmdParam) (rest : CCmdLine) :
    push_back ((k, v) :: rest) k x = (k, ⟨v.m_strings ++ [x]⟩) :: rest := by
  simp [push_back]

theorem loop_args_single (cs : List String) (hcs : ∀ c ∈ cs, IsSwitch (some c) = false)
    (s : String) : ∀ g : List String,
      SplitLine.loop cs s [(s, ⟨g⟩)] = [(s, ⟨g ++ cs⟩)] := by
  induction cs with
  | nil => intro g; simp [loop_nil]
  | cons c rest ih =>
    intro g
    rw [loop_arg (hcs c (List.mem_cons_self _ _)), push_back_same,
      ih (fun t ht => hcs t (List.mem_cons_of_mem _ ht))]
    simp

theorem isSwitch_false_of_digit {n : String} (h0 : n.data[0]? = some '-')
    (h1 : ∃ c, n.data[1]? = some c ∧ '0' ≤ c ∧ c ≤ '9') :
    IsSwitch (some n) = false := by
  rcases n with ⟨cs⟩
  obtain ⟨c, hc, hlo, hhi⟩ := h1
  match cs, h0, hc with
  | [], h0, _ => simp at h0
  | [a], _, hc => simp at hc
  | a :: b :: rest, h0, hc =>
    simp at h0 hc
    subst h0 hc
    simp [IsSwitch, _tcslen, String.length, charAt, _istdigit, Char.isDigit]
    simp [Char.le_def] at hlo hhi
    exact ⟨hlo, hhi⟩

theorem ne_empty_of_isSwitch {s : String} (h : IsSwitch (some s) = true) : s ≠ "" := by
  rintro rfl
  revert h
  decide

theorem splitLine_cons (T : CCmdLine) (prog : String) (ts : List String) :
    SplitLine T (prog :: ts) =
      (SplitLine.loop ts "" [], size (SplitLine.loop ts "" [])) := rfl

theorem isSwitch_empty : IsSwitch (some "") = false := by decide

/-! ## Groups grow by tokens of the input, in order -/

theorem mem_arguments {m : CCmdLine} {x : String} :
    x ∈ arguments m ↔ ∃ e ∈ m, x ∈ e.2.m_strings := by
  induction m with
  | nil => simp [arguments]
  | cons e rest ih =>
    obtain ⟨k, v⟩ := e
    simp [arguments, ih]

theorem length_arguments (m : CCmdLine) :
    (arguments m).length = (m.map (fun e => e.2.m_strings.length)).sum := by
  induction m with
  | nil => rfl
  | cons e rest ih =>
    obtain ⟨k, v⟩ := e
    simp [arguments, ih]

theorem arguments_append_singleton (m : CCmdLine) (k : String) (v : CCmdParam) :
    arguments (m ++ [(k, v)]) = arguments m ++ v.m_strings := by
  induction m with
  | nil => simp [arguments]
  | cons e rest ih =>
    obtain ⟨k', v'⟩ := e
    simp [arguments, ih]

theorem insert_of_mem_keys {m : CCmdLine} {k : String} (h : k ∈ keys m)
    (v : CCmdParam) : insert m k v = m := by
  obtain ⟨e, he⟩ := Option.isSome_iff_exists.mp ((find_isSome_iff m k).mpr h)
  simp [insert, he]

theorem arguments_insert_of_not_mem {m : CCmdLine} {k : String} (h : k ∉ keys m)
    (v : CCmdParam) : arguments (insert m k v) = arguments m ++ v.m_strings := by
  have hf := (find_eq_none_iff m k).mpr h
  simp [insert, hf, arguments_append_singleton]

theorem arguments_push_back_perm {m : CCmdLine} {cur : String} (h : cur ∈ keys m)
    (x : String) : List.Perm (arguments (push_back m cur x)) (arguments m ++ [x]) := by
  induction m with
  | nil => simp [keys] at h
  | cons e rest ih =>
    obtain ⟨k, v⟩ := e
    by_cases hk : k = cur
    · subst hk
      simp only [push_back, if_true, arguments]
      rw [List.append_assoc, List.append_assoc]
      exact List.Perm.append_left _ List.perm_append_comm
    · have h' : cur ∈ keys rest := by
        simp only [keys, List.map_cons, List.mem_cons] at h
        rcases h with h | h
        · exact absurd h.symm hk
        · exact h
      simp only [push_back, hk, if_false, arguments]
      rw [List.append_assoc]
      exact List.Perm.append_left _ (ih h')

theorem length_arguments_push_back (m : CCmdLine) (cur x : String) :
    (arguments (push_back m cur x)).length ≤ (arguments m).length + 1 := by
  by_cases h : cur ∈ keys m
  · rw [(arguments_push_back_perm h x).length_eq]
    simp
  · rw [push_back_of_find_none x ((find_eq_none_iff m cur).mpr h)]
    exact Nat.le_succ _

theorem length_arguments_insert (m : CCmdLine) (k : String) (v : CCmdParam) :
    (arguments (insert m k v)).length ≤ (arguments m).length + v.m_strings.length := by
  by_cases h : k ∈ keys m
  · rw [insert_of_mem_keys h]
    exact Nat.le_add_right _ _
  · rw [arguments_insert_of_not_mem h]
    simp

theorem filter_arg_cons {a : String} (ha : IsSwitch (some a) = false) (rest : List String) :
    (a :: rest).filter (fun t => !IsSwitch (some t)) =
      a :: rest.filter (fun t => !IsSwitch (some t)) :=
  List.filter_cons_of_pos (by simp [ha])

theorem filter_arg_cons_switch {a : String} (ha : IsSwitch (some a) = true)
    (rest : List String) :
    (a :: rest).filter (fun t => !IsSwitch (some t)) =
      rest.filter (fun t => !IsSwitch (some t)) :=
  List.filter_cons_of_neg (by simp [ha])

theorem filter_switch_cons {a : String} (ha : IsSwitch (some a) = true) (rest : List String) :
    (a :: rest).filter (fun t => IsSwitch (some t)) =
      a :: rest.filter (fun t => IsSwitch (some t)) :=
  List.filter_cons_of_pos ha

theorem filter_switch_cons_arg {a : String} (ha : IsSwitch (some a) = false)
    (rest : List String) :
    (a :: rest).filter (fun t => IsSwitch (some t)) =
      rest.filter (fun t => IsSwitch (some t)) :=
  List.filter_cons_of_neg (by simp [ha])

theorem loop_length_arguments (ts : List String) :
    ∀ (cur : String) (m : CCmdLine),
      (arguments (SplitLine.loop ts cur m)).length ≤
        (arguments m).length + (ts.filter (fun t => !IsSwitch (some t))).length := by
  induction ts using tokens_induction with
  | nil => intro cur m; simp [loop_nil]
  | arg a rest ha ih =>
    intro cur m
    rw [loop_arg ha, filter_arg_cons ha]
    have h1 := ih cur (push_back m cur a)
    have h2 := length_arguments_push_back m cur a
    simp only [List.length_cons]
    omega
  | last a ha =>
    intro cur m
    rw [loop_switch_last ha]
    have := length_arguments_insert m a ⟨[]⟩
    simp at this
    omega
  | switch_arg a b rest ha hb ih =>
    intro cur m
    rw [loop_switch_arg ha hb, filter_arg_cons_switch ha, filter_arg_cons hb]
    have h1 := ih a (insert m a (if b ≠ "" then ⟨[b]⟩ else ⟨[]⟩))
    have h2 := length_arguments_insert m a (if b ≠ "" then ⟨[b]⟩ else ⟨[]⟩)
    have h3 : (if b ≠ "" then (⟨[b]⟩ : CCmdParam) else ⟨[]⟩).m_strings.length ≤ 1 := by
      split <;> simp
    simp only [List.length_cons]
    omega
  | switch_switch a b rest ha hb ih =>
    intro cur m
    rw [loop_switch_switch ha hb, filter_arg_cons_switch ha]
    have h1 := ih a (insert m a ⟨[]⟩)
    have h2 := length_arguments_insert m a ⟨[]⟩
    simp at h2
    omega

theorem find_insert_group (m : CCmdLine) (k s : String) (v : CCmdParam) :
    ∃ w, ((find (insert m k v) s).map CCmdParam.m_strings).getD [] =
        ((find m s).map CCmdParam.m_strings).getD [] ++ w ∧
      w.Sublist v.m_strings := by
  rw [find_insert]
  cases hf : find m s with
  | some e => exact ⟨[], by simp, List.nil_sublist _⟩
  | none =>
    by_cases hk : k = s
    · exact ⟨v.m_strings, by simp [hk], List.Sublist.refl _⟩
    · exact ⟨[], by simp [hk], List.nil_sublist _⟩

theorem find_push_back_group (m : CCmdLine) (cur x s : String) :
    ∃ w, ((find (push_back m cur x) s).map CCmdParam.m_strings).getD [] =
        ((find m s).map CCmdParam.m_strings).getD [] ++ w ∧
      w.Sublist [x] := by
  rw [find_push_back]
  by_cases hc : cur = s
  · cases hf : find m s with
    | some e => exact ⟨[x], by simp [hc], List.Sublist.refl _⟩
    | none => exact ⟨[], by simp [hc], List.nil_sublist _⟩
  · exact ⟨[], by simp [hc], List.nil_sublist _⟩

theorem loop_group_sublist (s : String) (ts : List String) :
    ∀ (cur : String) (m : CCmdLine),
      ∃ l, ((find (SplitLine.loop ts cur m) s).map CCmdParam.m_strings).getD [] =
          ((find m s).map CCmdParam.m_strings).getD [] ++ l ∧
        l.Sublist (ts.filter (fun t => !IsSwitch (some t))) := by
  induction ts using tokens_induction with
  | nil => intro cur m; exact ⟨[], by simp [loop_nil], List.nil_sublist _⟩
  | arg a rest ha ih =>
    intro cur m
    obtain ⟨l, hl, hsub⟩ := ih cur (push_back m cur a)
    obtain ⟨w, hw, hwsub⟩ := find_push_back_group m cur a s
    refine ⟨w ++ l, ?_, ?_⟩
    · rw [loop_arg ha, hl, hw, List.append_assoc]
    · rw [filter_arg_cons ha]
      exact List.Sublist.append hwsub hsub
  | last a ha =>
    intro cur m
    obtain ⟨w, hw, hwsub⟩ := find_insert_group m a s ⟨[]⟩
    refine ⟨w, ?_, ?_⟩
    · rw [loop_switch_last ha, hw]
    · rw [List.sublist_nil.mp hwsub]
      exact List.nil_sublist _
  | switch_arg a b rest ha hb ih =>
    intro cur m
    obtain ⟨l, hl, hsub⟩ := ih a (insert m a (if b ≠ "" then ⟨[b]⟩ else ⟨[]⟩))
    obtain ⟨w, hw, hwsub⟩ := find_insert_group m a s (if b ≠ "" then ⟨[b]⟩ else ⟨[]⟩)
    have hv : (if b ≠ "" then (⟨[b]⟩ : CCmdParam) else ⟨[]⟩).m_strings.Sublist [b] := by
      split
      · exact List.Sublist.refl _
      · exact List.nil_sublist _
    refine ⟨w ++ l, ?_, ?_⟩
    · rw [loop_switch_arg ha hb, hl, hw, List.append_assoc]
    · rw [filter_arg_cons_switch ha, filter_arg_cons hb]
      exact List.Sublist.append (hwsub.trans hv) hsub
  | switch_switch a b rest ha hb ih =>
    intro cur m
    obtain ⟨l, hl, hsub⟩ := ih a (insert m a ⟨[]⟩)
    obtain ⟨w, hw, hwsub⟩ := find_insert_group m a s ⟨[]⟩
    refine ⟨l, ?_, ?_⟩
    · rw [loop_switch_switch ha hb, hl, hw, List.sublist_nil.mp hwsub, List.append_nil]
    · rw [filter_arg_cons_switch ha]
      exact hsub

theorem splitLine_group_sublist {T : CCmdLine} {prog : String} {ts : List String}
    {s : String} {g : CCmdParam} (h : (s, g) ∈ (SplitLine T (prog :: ts)).1) :
    g.m_strings.Sublist (ts.filter (fun t => !IsSwitch (some t))) := by
  have hf := find_of_mem_nodup (splitLine_nodup_keys T (prog :: ts)) h
  obtain ⟨l, hl, hsub⟩ := loop_group_sublist s ts "" []
  rw [splitLine_cons] at hf
  rw [hf] at hl
  simp [find] at hl
  rw [hl]
  exact hsub

theorem splitLine_keys_perm (T : CCmdLine) (prog : String) (ts : List String) :
    List.Perm (keys (SplitLine T (prog :: ts)).1)
      ((ts.filter (fun t => IsSwitch (some t))).dedup) := by
  refine (List.perm_ext_iff_of_nodup (splitLine_nodup_keys T (prog :: ts))
    (List.nodup_dedup _)).mpr ?_
  intro s
  have := loop_mem_keys ts "" (clear T) s
  rw [List.mem_dedup, List.mem_filter]
  simpa [clear, keys] using this

/-! ## Conservation of the arguments when no switch is repeated -/

theorem loop_arguments_perm (ts : List String) :
    ∀ (cur : String) (m : CCmdLine),
      (cur ∈ keys m ∨ ∀ a ∈ ts.head?, IsSwitch (some a) = true) →
      (∀ t ∈ ts, IsSwitch (some t) = true → t ∉ keys m) →
      (ts.filter (fun t => IsSwitch (some t))).Nodup →
      List.Perm ((arguments (SplitLine.loop ts cur m)).filter (fun t => decide (t ≠ "")))
        ((arguments m).filter (fun t => decide (t ≠ "")) ++
          (ts.filter (fun t => !IsSwitch (some t))).filter (fun t => decide (t ≠ ""))) := by
  induction ts using tokens_induction with
  | nil => intro cur m _ _ _; simp [loop_nil]
  | arg a rest ha ih =>
    intro cur m hcur hfresh hnd
    have hc : cur ∈ keys m := by
      rcases hcur with h | h
      · exact h
      · have := h a (by simp)
        rw [ha] at this
        cases this
    rw [loop_arg ha, filter_arg_cons ha]
    rw [filter_switch_cons_arg ha] at hnd
    have h1 := ih cur (push_back m cur a) (Or.inl (by rw [keys_push_back]; exact hc))
      (fun t ht hsw => by
        rw [keys_push_back]
        exact hfresh t (List.mem_cons_of_mem _ ht) hsw) hnd
    have h2 : List.Perm
        ((arguments (push_back m cur a)).filter (fun t => decide (t ≠ "")))
        ((arguments m).filter (fun t => decide (t ≠ "")) ++
          [a].filter (fun t => decide (t ≠ ""))) := by
      rw [← List.filter_append]
      exact (arguments_push_back_perm hc a).filter _
    refine h1.trans ?_
    have h3 := List.Perm.append_right
      ((rest.filter (fun t => !IsSwitch (some t))).filter (fun t => decide (t ≠ ""))) h2
    refine h3.trans ?_
    rw [List.append_assoc, ← List.filter_append]
    rfl
  | last a ha =>
    intro cur m _ hfresh _
    have hk : a ∉ keys m := hfresh a (List.mem_singleton_self _) ha
    rw [loop_switch_last ha, arguments_insert_of_not_mem hk, filter_arg_cons_switch ha]
    simp
  | switch_arg a b rest ha hb ih =>
    intro cur m _ hfresh hnd
    have hk : a ∉ keys m := hfresh a (List.mem_cons_self _ _) ha
    rw [filter_switch_cons ha, filter_switch_cons_arg hb] at hnd
    have hnd' := List.nodup_cons.mp hnd
    rw [loop_switch_arg ha hb, filter_arg_cons_switch ha, filter_arg_cons hb]
    have h1 := ih a (insert m a (if b ≠ "" then ⟨[b]⟩ else ⟨[]⟩))
      (Or.inl ((mem_keys_insert _ _ _ _).mpr (Or.inr rfl)))
      (fun t ht hsw hin => by
        rcases (mem_keys_insert _ _ _ _).mp hin with h | h
        · exact hfresh t (List.mem_cons_of_mem _ (List.mem_cons_of_mem _ ht)) hsw h
        · exact hnd'.1 (h ▸ List.mem_filter.mpr ⟨ht, hsw⟩)) hnd'.2
    refine h1.trans ?_
    rw [arguments_insert_of_not_mem hk, List.filter_append, List.append_assoc]
    refine List.Perm.append_left _ ?_
    have hv : (if b ≠ "" then (⟨[b]⟩ : CCmdParam) else ⟨[]⟩).m_strings.filter
        (fun t => decide (t ≠ "")) = [b].filter (fun t => decide (t ≠ "")) := by
      by_cases hbe : b = ""
      · simp [hbe]
      · simp [hbe]
    rw [hv, ← List.filter_append]
    rfl
  | switch_switch a b rest ha hb ih =>
    intro cur m _ hfresh hnd
    have hk : a ∉ keys m := hfresh a (List.mem_cons_self _ _) ha
    rw [filter_switch_cons ha] at hnd
    have hnd' := List.nodup_cons.mp hnd
    rw [loop_switch_switch ha hb, filter_arg_cons_switch ha]
    have h1 := ih a (insert m a ⟨[]⟩)
      (Or.inl ((mem_keys_insert _ _ _ _).mpr (Or.inr rfl)))
      (fun t ht hsw hin => by
        rcases (mem_keys_insert _ _ _ _).mp hin with h | h
        · exact hfresh t (List.mem_cons_of_mem _ ht) hsw h
        · exact hnd'.1 (h ▸ List.mem_filter.mpr ⟨ht, hsw⟩)) hnd'.2
    refine h1.trans ?_
    rw [arguments_insert_of_not_mem hk]
    simp

theorem head_dropWhile_arg_isSwitch (ts : List String) :
    ∀ a ∈ (ts.dropWhile (fun t => !IsSwitch (some t))).head?, IsSwitch (some a) = true := by
  intro a ha
  have := List.head?_dropWhile_not (fun t => !IsSwitch (some t)) ts
  rw [Option.mem_def] at ha
  rw [ha] at this
  simpa using this

theorem loop_dropWhile_args (ts : List String) :
    SplitLine.loop ts "" [] =
      SplitLine.loop (ts.dropWhile (fun t => !IsSwitch (some t))) "" [] := by
  have h := loop_leading_args (ts.takeWhile (fun t => !IsSwitch (some t)))
    (fun t ht => by simpa using List.mem_takeWhile_imp ht)
    (ts.dropWhile (fun t => !IsSwitch (some t))) "" [] rfl
  rw [List.takeWhile_append_dropWhile] at h
  exact h

theorem splitLine_arguments_perm (T : CCmdLine) (prog : String) (ts : List String)
    (hnd : (ts.filter (fun t => IsSwitch (some t))).Nodup) :
    List.Perm ((arguments (SplitLine T (prog :: ts)).1).filter (fun t => decide (t ≠ "")))
      (((ts.dropWhile (fun t => !IsSwitch (some t))).filter
        (fun t => !IsSwitch (some t))).filter (fun t => decide (t ≠ ""))) := by
  rw [splitLine_cons]
  show List.Perm ((arguments (SplitLine.loop ts "" [])).filter _) _
  rw [loop_dropWhile_args]
  have h := loop_arguments_perm (ts.dropWhile (fun t => !IsSwitch (some t))) "" []
    (Or.inr (head_dropWhile_arg_isSwitch ts)) (fun _ _ _ h => by simp [keys] at h)
    (List.Nodup.sublist ((List.dropWhile_sublist _).filter _) hnd)
  simpa [arguments] using h

theorem expectedArguments_switch {a : String} (ha : IsSwitch (some a) = true)
    (p : Bool) (rest : List String) :
    expectedArguments p (a :: rest) = expectedArguments true rest := by
  simp [expectedArguments, ha]

theorem expectedArguments_arg {a : String} (ha : IsSwitch (some a) = false)
    (rest : List String) :
    expectedArguments false (a :: rest) = a :: expectedArguments false rest := by
  simp [expectedArguments, ha]

theorem expectedArguments_lookahead {b : String} (hb : IsSwitch (some b) = false)
    (rest : List String) :
    expectedArguments true (b :: rest) =
      (if b ≠ "" then (⟨[b]⟩ : CCmdParam) else ⟨[]⟩).m_strings ++
        expectedArguments false rest := by
  by_cases hbe : b = ""
  · subst hbe
    simp [expectedArguments, isSwitch_empty]
  · simp [expectedArguments, hb, hbe]

theorem loop_arguments_perm_exact (ts : List String) :
    ∀ (cur : String) (m : CCmdLine),
      (cur ∈ keys m ∨ ∀ a ∈ ts.head?, IsSwitch (some a) = true) →
      (∀ t ∈ ts, IsSwitch (some t) = true → t ∉ keys m) →
      (ts.filter (fun t => IsSwitch (some t))).Nodup →
      List.Perm (arguments (SplitLine.loop ts cur m))
        (arguments m ++ expectedArguments false ts) := by
  induction ts using tokens_induction with
  | nil => intro cur m _ _ _; simp [loop_nil, expectedArguments]
  | arg a rest ha ih =>
    intro cur m hcur hfresh hnd
    have hc : cur ∈ keys m := by
      rcases hcur with h | h
      · exact h
      · have := h a (by simp)
        rw [ha] at this
        cases this
    rw [loop_arg ha, expectedArguments_arg ha]
    rw [filter_switch_cons_arg ha] at hnd
    have h1 := ih cur (push_back m cur a) (Or.inl (by rw [keys_push_back]; exact hc))
      (fun t ht hsw => by
        rw [keys_push_back]
        exact hfresh t (List.mem_cons_of_mem _ ht) hsw) hnd
    refine h1.trans ?_
    have h2 := List.Perm.append_right (expectedArguments false rest)
      (arguments_push_back_perm hc a)
    refine h2.trans ?_
    rw [List.append_assoc]
    rfl
  | last a ha =>
    intro cur m _ hfresh _
    have hk : a ∉ keys m := hfresh a (List.mem_singleton_self _) ha
    rw [loop_switch_last ha, arguments_insert_of_not_mem hk, expectedArguments_switch ha]
    simp [expectedArguments]
  | switch_arg a b rest ha hb ih =>
    intro cur m _ hfresh hnd
    have hk : a ∉ keys m := hfresh a (List.mem_cons_self _ _) ha
    rw [filter_switch_cons ha, filter_switch_cons_arg hb] at hnd
    have hnd' := List.nodup_cons.mp hnd
    rw [loop_switch_arg ha hb, expectedArguments_switch ha, expectedArguments_lookahead hb]
    have h1 := ih a (insert m a (if b ≠ "" then ⟨[b]⟩ else ⟨[]⟩))
      (Or.inl ((mem_keys_insert _ _ _ _).mpr (Or.inr rfl)))
      (fun t ht hsw hin => by
        rcases (mem_keys_insert _ _ _ _).mp hin with h | h
        · exact hfresh t (List.mem_cons_of_mem _ (List.mem_cons_of_mem _ ht)) hsw h
        · exact hnd'.1 (h ▸ List.mem_filter.mpr ⟨ht, hsw⟩)) hnd'.2
    refine h1.trans ?_
    rw [arguments_insert_of_not_mem hk, List.append_assoc]
  | switch_switch a b rest ha hb ih =>
    intro cur m _ hfresh hnd
    have hk : a ∉ keys m := hfresh a (List.mem_cons_self _ _) ha
    rw [filter_switch_cons ha] at hnd
    have hnd' := List.nodup_cons.mp hnd
    rw [loop_switch_switch ha hb, expectedArguments_switch ha,
      expectedArguments_switch hb true rest, ← expectedArguments_switch hb false rest]
    have h1 := ih a (insert m a ⟨[]⟩)
      (Or.inl ((mem_keys_insert _ _ _ _).mpr (Or.inr rfl)))
      (fun t ht hsw hin => by
        rcases (mem_keys_insert _ _ _ _).mp hin with h | h
        · exact hfresh t (List.mem_cons_of_mem _ ht) hsw h
        · exact hnd'.1 (h ▸ List.mem_filter.mpr ⟨ht, hsw⟩)) hnd'.2
    refine h1.trans ?_
    rw [arguments_insert_of_not_mem hk]
    simp

theorem splitLine_arguments_perm_exact (T : CCmdLine) (prog : String) (ts : List String)
    (hnd : (ts.filter (fun t => IsSwitch (some t))).Nodup) :
    List.Perm (arguments (SplitLine T (prog :: ts)).1)
      (expectedArguments false (ts.dropWhile (fun t => !IsSwitch (some t)))) := by
  rw [splitLine_cons]
  show List.Perm (arguments (SplitLine.loop ts "" [])) _
  rw [loop_dropWhile_args]
  have h := loop_arguments_perm_exact (ts.dropWhile (fun t => !IsSwitch (some t))) "" []
    (Or.inr (head_dropWhile_arg_isSwitch ts)) (fun _ _ _ h => by simp [keys] at h)
    (List.Nodup.sublist ((List.dropWhile_sublist _).filter _) hnd)
  simpa [arguments] using h

/-! ## The claims, continued -/

/-- C11. A token that starts with a hyphen followed by a decimal digit is an
argument: after a switch `s` it becomes the single argument of `s` and is not
a key.  The sample line of the header,
`MyApp.exe -p1 text1 text2 -p2 "this is a big argument" -opt1 -55 -opt2`,
gives `-p1 -> [text1,text2]`, `-p2 -> [this is a big argument]`,
`-opt1 -> [-55]`, `-opt2 -> []` and nothing else. -/
theorem C11_negative_numbers_are_arguments :
    (∀ (T : CCmdLine) (prog s n : String), IsSwitch (some s) = true →
      n.data[0]? = some '-' → (∃ c, n.data[1]? = some c ∧ '0' ≤ c ∧ c ≤ '9') →
      (SplitLine T [prog, s, n]).1 = [(s, ⟨[n]⟩)] ∧
        n ∉ keys (SplitLine T [prog, s, n]).1) ∧
    (SplitLine [] ["MyApp.exe", "-p1", "text1", "text2", "-p2", "this is a big argument",
        "-opt1", "-55", "-opt2"]).1 =
      [("-p1", ⟨["text1", "text2"]⟩), ("-p2", ⟨["this is a big argument"]⟩),
        ("-opt1", ⟨["-55"]⟩), ("-opt2", ⟨[]⟩)] := by
  refine ⟨?_, by decide⟩
  intro T prog s n hs h0 h1
  have hn : IsSwitch (some n) = false := isSwitch_false_of_digit h0 h1
  have hne : n ≠ "" := by
    rintro rfl
    simp at h0
  have htab : (SplitLine T [prog, s, n]).1 = [(s, ⟨[n]⟩)] := by
    rw [splitLine_cons]
    show SplitLine.loop [s, n] "" [] = _
    rw [loop_switch_arg hs hn, loop_nil, insert_nil]
    simp [hne]
  refine ⟨htab, ?_⟩
  rw [htab]
  intro hmem
  simp [keys] at hmem
  rw [hmem, hs] at hn
  cases hn

/-- C11, at the switch `-opt1` followed by `-55`. -/
theorem C11_negative_numbers_are_arguments_witness :
    (IsSwitch (some "-opt1") = true ∧ "-55".data[0]? = some '-' ∧
      ∃ c, "-55".data[1]? = some c ∧ '0' ≤ c ∧ c ≤ '9') ∧
    (SplitLine [] ["app", "-opt1", "-55"]).1 = [("-opt1", ⟨["-55"]⟩)] ∧
      "-55" ∉ keys (SplitLine [] ["app", "-opt1", "-55"]).1 :=
  ⟨⟨by decide, by decide, '5', by decide, by decide, by decide⟩,
    C11_negative_numbers_are_arguments.1 [] "app" "-opt1" "-55" (by decide) (by decide)
      ⟨'5', by decide, by decide, by decide⟩⟩

/-- C12. When a switch `s` occurs twice, each time followed by a non-empty
non-switch token, `SplitLine` returns `1` and the only entry is `s -> [a]`, the
one made at the first occurrence; `-a 1 -a 2` gives `-a -> [1]`. -/
theorem C12_duplicate_switch_first_wins :
    (∀ (T : CCmdLine) (prog s a b : String), IsSwitch (some s) = true →
      a ≠ "" → IsSwitch (some a) = false → b ≠ "" → IsSwitch (some b) = false →
      SplitLine T [prog, s, a, s, b] = ([(s, ⟨[a]⟩)], 1)) ∧
    SplitLine [] ["app", "-a", "1", "-a", "2"] = ([("-a", ⟨["1"]⟩)], 1) := by
  refine ⟨?_, by decide⟩
  intro T prog s a b hs hane ha hbne hb
  have h : SplitLine.loop [s, a, s, b] "" [] = [(s, ⟨[a]⟩)] := by
    rw [loop_switch_arg hs ha, insert_nil, loop_switch_arg hs hb, loop_nil]
    simp only [hane, ne_eq, not_false_eq_true, if_true]
    rw [insert_same]
  rw [splitLine_cons, h]
  rfl

/-- C12, at `-a 1 -a 2`. -/
theorem C12_duplicate_switch_first_wins_witness :
    (IsSwitch (some "-a") = true ∧ "1" ≠ "" ∧ IsSwitch (some "1") = false ∧
      "2" ≠ "" ∧ IsSwitch (some "2") = false) ∧
    SplitLine [] ["app", "-a", "1", "-a", "2"] = ([("-a", ⟨["1"]⟩)], 1) :=
  ⟨⟨by decide, by decide, by decide, by decide, by decide⟩,
    C12_duplicate_switch_first_wins.1 [] "app" "-a" "1" "2" (by decide) (by decide)
      (by decide) (by decide) (by decide)⟩

/-- C13. The first element of the argument vector is never looked at: two
vectors that differ only there give the same table and count, also when that
element looks like a switch; a vector of length 0 or 1 gives the empty table
and the count `0`. -/
theorem C13_program_name_skipped :
    (∀ (T : CCmdLine) (p q : String) (ts : List String),
      SplitLine T (p :: ts) = SplitLine T (q :: ts)) ∧
    (∀ (T : CCmdLine) (argv : List String), argv.length ≤ 1 →
      SplitLine T argv = ([], 0)) ∧
    SplitLine [] ["-x", "-a", "1"] = SplitLine [] ["app", "-a", "1"] := by
  refine ⟨fun _ _ _ _ => rfl, ?_, rfl⟩
  intro T argv h
  match argv, h with
  | [], _ => rfl
  | [_], _ => rfl
  | _ :: _ :: _, h => simp at h

/-- C13, at the vectors of length 0 and 1. -/
theorem C13_program_name_skipped_witness :
    ([] : List String).length ≤ 1 ∧ ["-x"].length ≤ 1 ∧
    SplitLine [] [] = ([], 0) ∧ SplitLine [] ["-x"] = ([], 0) :=
  ⟨by decide, by decide, C13_program_name_skipped.2.1 [] [] (by decide),
    C13_program_name_skipped.2.1 [] ["-x"] (by decide)⟩

/-- C14, as stated, fails on `a -x 1 -x 2`: the non-empty token `a`, standing
before the first switch, and the non-empty token `2`, standing right after the
second `-x`, are neither keys nor members of any group. -/
theorem C14_token_conservation_counterexample :
    ("a" ∈ ["a", "-x", "1", "-x", "2"] ∧ "a" ≠ "" ∧
      "a" ∉ keys (SplitLine [] ["app", "a", "-x", "1", "-x", "2"]).1 ∧
      ∀ e ∈ (SplitLine [] ["app", "a", "-x", "1", "-x", "2"]).1, "a" ∉ e.2.m_strings) ∧
    ("2" ∈ ["a", "-x", "1", "-x", "2"] ∧ "2" ≠ "" ∧
      "2" ∉ keys (SplitLine [] ["app", "a", "-x", "1", "-x", "2"]).1 ∧
      ∀ e ∈ (SplitLine [] ["app", "a", "-x", "1", "-x", "2"]).1, "2" ∉ e.2.m_strings) := by
  decide

/-- C14, amended. When no switch text is repeated among the tokens: every
switch token is a key of the table; the members of all groups together are,
counted with multiplicity, exactly the non-switch token occurrences that stand
after the first switch, other than an empty token standing right after a
switch, so each such occurrence is in exactly one group, the tokens before the
first switch are in none, and an empty token right after a switch is dropped;
in particular the non-empty members of the groups are exactly the non-empty
non-switch tokens standing after the first switch. -/
theorem C14_token_conservation_amended (T : CCmdLine) (prog : String) (ts : List String)
    (hnd : (ts.filter (fun t => IsSwitch (some t))).Nodup) :
    (∀ t ∈ ts, IsSwitch (some t) = true → t ∈ keys (SplitLine T (prog :: ts)).1) ∧
    List.Perm (arguments (SplitLine T (prog :: ts)).1)
      (expectedArguments false (ts.dropWhile (fun t => !IsSwitch (some t)))) ∧
    List.Perm ((arguments (SplitLine T (prog :: ts)).1).filter (fun t => decide (t ≠ "")))
      (((ts.dropWhile (fun t => !IsSwitch (some t))).filter
        (fun t => !IsSwitch (some t))).filter (fun t => decide (t ≠ ""))) := by
  refine ⟨?_, splitLine_arguments_perm_exact T prog ts hnd,
    splitLine_arguments_perm T prog ts hnd⟩
  intro t ht hsw
  exact (loop_mem_keys ts "" (clear T) t).mpr (Or.inr ⟨ht, hsw⟩)

/-- C14 amended, at `a -x "" 1 "" -y`: `a` is discarded, the empty token right
after `-x` is dropped, and `1` and the later empty token are kept. -/
theorem C14_token_conservation_amended_witness :
    (["a", "-x", "", "1", "", "-y"].filter (fun t => IsSwitch (some t))).Nodup ∧
    expectedArguments false
      (["a", "-x", "", "1", "", "-y"].dropWhile (fun t => !IsSwitch (some t))) = ["1", ""] ∧
    (SplitLine [] ("app" :: ["a", "-x", "", "1", "", "-y"])).1 =
      [("-x", ⟨["1", ""]⟩), ("-y", ⟨[]⟩)] ∧
    ((∀ t ∈ ["a", "-x", "", "1", "", "-y"], IsSwitch (some t) = true →
        t ∈ keys (SplitLine [] ("app" :: ["a", "-x", "", "1", "", "-y"])).1) ∧
      List.Perm (arguments (SplitLine [] ("app" :: ["a", "-x", "", "1", "", "-y"])).1)
        (expectedArguments false
          (["a", "-x", "", "1", "", "-y"].dropWhile (fun t => !IsSwitch (some t)))) ∧
      List.Perm
        ((arguments (SplitLine [] ("app" :: ["a", "-x", "", "1", "", "-y"])).1).filter
          (fun t => decide (t ≠ "")))
        (((["a", "-x", "", "1", "", "-y"].dropWhile (fun t => !IsSwitch (some t))).filter
          (fun t => !IsSwitch (some t))).filter (fun t => decide (t ≠ "")))) :=
  ⟨by decide, by decide, by decide,
    C14_token_conservation_amended [] "app" ["a", "-x", "", "1", "", "-y"] (by decide)⟩

/-- C15. An empty token right after a switch `s` is not recorded: when the
tokens after it do not start with an empty token, the table and the count are
those of the same line without it; `s` followed by one empty token gives
`s -> []` and `GetArgumentCount(s) = 0`. -/
theorem C15_empty_lookahead_not_appended :
    (∀ (T : CCmdLine) (prog s : String) (rest : List String),
      IsSwitch (some s) = true → rest.head? ≠ some "" →
      SplitLine T (prog :: s :: "" :: rest) = SplitLine T (prog :: s :: rest)) ∧
    (∀ (T : CCmdLine) (prog s : String), IsSwitch (some s) = true →
      (SplitLine T [prog, s, ""]).1 = [(s, ⟨[]⟩)] ∧
        GetArgumentCount (SplitLine T [prog, s, ""]).1 s = 0) := by
  have hl : ∀ (s : String) (rest : List String), IsSwitch (some s) = true →
      SplitLine.loop (s :: "" :: rest) "" [] = SplitLine.loop rest s [(s, ⟨[]⟩)] := by
    intro s rest hs
    rw [loop_switch_arg hs isSwitch_empty, insert_nil]
    simp
  constructor
  · intro T prog s rest hs hrest
    have h : SplitLine.loop (s :: "" :: rest) "" [] = SplitLine.loop (s :: rest) "" [] := by
      rw [hl s rest hs]
      match rest, hrest with
      | [], _ => rw [loop_nil, loop_switch_last hs, insert_nil]
      | b :: r, hrest =>
        have hbne : b ≠ "" := by
          rintro rfl
          exact hrest rfl
        cases hb : IsSwitch (some b) with
        | false =>
          rw [loop_arg hb, push_back_same, loop_switch_arg hs hb, insert_nil]
          simp [hbne]
        | true => rw [loop_switch_switch hs hb, insert_nil]
    rw [splitLine_cons, splitLine_cons, h]
  · intro T prog s hs
    have h : (SplitLine T [prog, s, ""]).1 = [(s, ⟨[]⟩)] := by
      rw [splitLine_cons]
      show SplitLine.loop [s, ""] "" [] = _
      rw [hl s [] hs, loop_nil]
    refine ⟨h, ?_⟩
    rw [h]
    simp [GetArgumentCount, HasSwitch, find]

/-- C15, at `-a`, an empty token, then `x -b`. -/
theorem C15_empty_lookahead_not_appended_witness :
    (IsSwitch (some "-a") = true ∧ ["x", "-b"].head? ≠ some "") ∧
    SplitLine [] ("app" :: "-a" :: "" :: ["x", "-b"]) =
      SplitLine [] ("app" :: "-a" :: ["x", "-b"]) :=
  ⟨⟨by decide, by decide⟩,
    C15_empty_lookahead_not_appended.1 [] "app" "-a" ["x", "-b"] (by decide) (by decide)⟩

/-- C16. The group of every key of the table is a sublist, in the same order,
of the non-switch tokens of the input. -/
theorem C16_argument_order_preserved (T : CCmdLine) (prog : String) (ts : List String)
    (s : String) (g : CCmdParam) (h : (s, g) ∈ (SplitLine T (prog :: ts)).1) :
    g.m_strings.Sublist (ts.filter (fun t => !IsSwitch (some t))) :=
  splitLine_group_sublist h

/-- C16, at the group `[1, 3]` that `-a 1 -a 2 3` records for `-a`. -/
theorem C16_argument_order_preserved_witness :
    (("-a", (⟨["1", "3"]⟩ : CCmdParam)) ∈ (SplitLine [] ("app" :: ["-a", "1", "-a", "2", "3"])).1) ∧
    (["1", "3"] : List String).Sublist
      (["-a", "1", "-a", "2", "3"].filter (fun t => !IsSwitch (some t))) :=
  ⟨by decide,
    C16_argument_order_preserved [] "app" ["-a", "1", "-a", "2", "3"] "-a" ⟨["1", "3"]⟩
      (by decide)⟩

/-- C17. After `SplitLine` every key of the table satisfies `IsSwitch`, no
member of any group does, and the empty text is not a key. -/
theorem C17_keys_are_switches (T : CCmdLine) (argv : List String) :
    (∀ k ∈ keys (SplitLine T argv).1, IsSwitch (some k) = true) ∧
    (∀ e ∈ (SplitLine T argv).1, ∀ x ∈ e.2.m_strings, IsSwitch (some x) = false) ∧
    "" ∉ keys (SplitLine T argv).1 := by
  have hkeys : ∀ k ∈ keys (SplitLine T argv).1, IsSwitch (some k) = true := by
    intro k hk
    rcases (loop_mem_keys (argv.drop 1) "" (clear T) k).mp hk with h | h
    · simp [clear, keys] at h
    · exact h.2
  refine ⟨hkeys, ?_, ?_⟩
  · intro e he x hx
    match argv, he with
    | [], he => simp [SplitLine, loop_nil, clear] at he
    | prog :: ts, he =>
      have hsub := splitLine_group_sublist (s := e.1) (g := e.2) he
      have := (List.mem_filter.mp (hsub.subset hx)).2
      simpa using this
  · intro h
    have := hkeys "" h
    rw [isSwitch_empty] at this
    cases this

/-- C18. When a switch `s` occurs a second time, the token right after that
second occurrence is recorded nowhere and the non-switch tokens after it join
the entry made at the first occurrence: `s a s b cs` gives the single entry
`s -> a :: cs`; `-a 1 -a 2 3` gives `-a -> [1,3]`. -/
theorem C18_repeated_switch_loses_lookahead :
    (∀ (T : CCmdLine) (prog s a b : String) (cs : List String),
      IsSwitch (some s) = true → a ≠ "" → IsSwitch (some a) = false →
      b ≠ "" → IsSwitch (some b) = false → (∀ c ∈ cs, IsSwitch (some c) = false) →
      (SplitLine T (prog :: s :: a :: s :: b :: cs)).1 = [(s, ⟨a :: cs⟩)]) ∧
    (SplitLine [] ["app", "-a", "1", "-a", "2", "3"]).1 = [("-a", ⟨["1", "3"]⟩)] := by
  refine ⟨?_, by decide⟩
  intro T prog s a b cs hs hane ha hbne hb hcs
  rw [splitLine_cons]
  show SplitLine.loop (s :: a :: s :: b :: cs) "" [] = _
  rw [loop_switch_arg hs ha, insert_nil, loop_switch_arg hs hb]
  simp only [hane, ne_eq, not_false_eq_true, if_true]
  rw [insert_same, loop_args_single cs hcs]
  rfl

/-- C18, at `-a 1 -a 2 3`: the `2` is in no group. -/
theorem C18_repeated_switch_loses_lookahead_witness :
    (IsSwitch (some "-a") = true ∧ "1" ≠ "" ∧ IsSwitch (some "1") = false ∧
      "2" ≠ "" ∧ IsSwitch (some "2") = false ∧
      ∀ c ∈ ["3"], IsSwitch (some c) = false) ∧
    (SplitLine [] ("app" :: "-a" :: "1" :: "-a" :: "2" :: ["3"])).1 =
      [("-a", ⟨"1" :: ["3"]⟩)] ∧
    "2" ∉ arguments (SplitLine [] ("app" :: "-a" :: "1" :: "-a" :: "2" :: ["3"])).1 :=
  ⟨⟨by decide, by decide, by decide, by decide, by decide, by decide⟩,
    C18_repeated_switch_loses_lookahead.1 [] "app" "-a" "1" "2" ["3"] (by decide)
      (by decide) (by decide) (by decide) (by decide) (by decide),
    by decide⟩

/-- C19. An empty token is dropped only right after a switch: `s a ""` gives
`s -> [a, ""]` with count `2`, and `s "" ""` gives `s -> [""]` with count `1`,
so a group can hold empty entries. -/
theorem C19_empty_token_kept_after_first :
    (∀ (T : CCmdLine) (prog s a : String), IsSwitch (some s) = true → a ≠ "" →
      IsSwitch (some a) = false →
      (SplitLine T [prog, s, a, ""]).1 = [(s, ⟨[a, ""]⟩)] ∧
        GetArgumentCount (SplitLine T [prog, s, a, ""]).1 s = 2) ∧
    (∀ (T : CCmdLine) (prog s : String), IsSwitch (some s) = true →
      (SplitLine T [prog, s, "", ""]).1 = [(s, ⟨[""]⟩)] ∧
        GetArgumentCount (SplitLine T [prog, s, "", ""]).1 s = 1) := by
  have hsingle : ∀ (s : String),
      SplitLine.loop [""] s [(s, ⟨[]⟩)] = [(s, ⟨[""]⟩)] := by
    intro s
    have := loop_args_single [""] (by decide) s []
    simpa using this
  constructor
  · intro T prog s a hs hane ha
    have h : (SplitLine T [prog, s, a, ""]).1 = [(s, ⟨[a, ""]⟩)] := by
      rw [splitLine_cons]
      show SplitLine.loop [s, a, ""] "" [] = _
      rw [loop_switch_arg hs ha, insert_nil]
      simp only [hane, ne_eq, not_false_eq_true, if_true]
      rw [loop_args_single [""] (by decide)]
      rfl
    refine ⟨h, ?_⟩
    rw [h]
    simp [GetArgumentCount, HasSwitch, find]
  · intro T prog s hs
    have h : (SplitLine T [prog, s, "", ""]).1 = [(s, ⟨[""]⟩)] := by
      rw [splitLine_cons]
      show SplitLine.loop [s, "", ""] "" [] = _
      rw [loop_switch_arg hs isSwitch_empty, insert_nil]
      simpa using hsingle s
    refine ⟨h, ?_⟩
    rw [h]
    simp [GetArgumentCount, HasSwitch, find]

/-- C19, at `-a x ""` and `-a "" ""`. -/
theorem C19_empty_token_kept_after_first_witness :
    (IsSwitch (some "-a") = true ∧ "x" ≠ "" ∧ IsSwitch (some "x") = false) ∧
    ((SplitLine [] ["app", "-a", "x", ""]).1 = [("-a", ⟨["x", ""]⟩)] ∧
      GetArgumentCount (SplitLine [] ["app", "-a", "x", ""]).1 "-a" = 2) ∧
    ((SplitLine [] ["app", "-a", "", ""]).1 = [("-a", ⟨[""]⟩)] ∧
      GetArgumentCount (SplitLine [] ["app", "-a", "", ""]).1 "-a" = 1) :=
  ⟨⟨by decide, by decide, by decide⟩,
    C19_empty_token_kept_after_first.1 [] "app" "-a" "x" (by decide) (by decide) (by decide),
    C19_empty_token_kept_after_first.2 [] "app" "-a" (by decide)⟩

/-- C20. The lengths of all groups add up to at most the number of non-switch
tokens of the input, and there are at most as many keys as switch tokens; both
are equalities when the tokens start with a switch, none of them is empty and
no switch text is repeated. -/
theorem C20_no_token_counted_twice (T : CCmdLine) (prog : String) (ts : List String) :
    ((SplitLine T (prog :: ts)).1.map (fun e => e.2.m_strings.length)).sum ≤
      (ts.filter (fun t => !IsSwitch (some t))).length ∧
    (keys (SplitLine T (prog :: ts)).1).length ≤
      (ts.filter (fun t => IsSwitch (some t))).length ∧
    ((∃ s rest, ts = s :: rest ∧ IsSwitch (some s) = true) → "" ∉ ts →
      (ts.filter (fun t => IsSwitch (some t))).Nodup →
      ((SplitLine T (prog :: ts)).1.map (fun e => e.2.m_strings.length)).sum =
        (ts.filter (fun t => !IsSwitch (some t))).length ∧
      (keys (SplitLine T (prog :: ts)).1).length =
        (ts.filter (fun t => IsSwitch (some t))).length) := by
  have hk := (splitLine_keys_perm T prog ts).length_eq
  refine ⟨?_, ?_, ?_⟩
  · rw [← length_arguments, splitLine_cons]
    have := loop_length_arguments ts "" []
    simpa [arguments] using this
  · rw [hk]
    exact (List.dedup_sublist _).length_le
  · rintro ⟨s, rest, rfl, hs⟩ hne hnd
    constructor
    · rw [← length_arguments]
      have hperm := splitLine_arguments_perm T prog (s :: rest) hnd
      have hdrop : (s :: rest).dropWhile (fun t => !IsSwitch (some t)) = s :: rest := by
        simp [List.dropWhile, hs]
      rw [hdrop] at hperm
      have hl : (arguments (SplitLine T (prog :: s :: rest)).1).filter
          (fun t => decide (t ≠ "")) = arguments (SplitLine T (prog :: s :: rest)).1 := by
        rw [List.filter_eq_self]
        intro x hx
        obtain ⟨e, he, hxe⟩ := mem_arguments.mp hx
        have hsub := splitLine_group_sublist (s := e.1) (g := e.2) he
        have hx' : x ∈ s :: rest := (List.mem_filter.mp (hsub.subset hxe)).1
        have : x ≠ "" := fun h => hne (h ▸ hx')
        simpa using this
      have hr : ((s :: rest).filter (fun t => !IsSwitch (some t))).filter
          (fun t => decide (t ≠ "")) = (s :: rest).filter (fun t => !IsSwitch (some t)) := by
        rw [List.filter_eq_self]
        intro x hx
        have hx' : x ∈ s :: rest := (List.mem_filter.mp hx).1
        have : x ≠ "" := fun h => hne (h ▸ hx')
        simpa using this
      rw [hl, hr] at hperm
      exact hperm.length_eq
    · rw [hk, hnd.dedup]

/-- C20, at the sample line `-a p1 p2 p3 -b p4 -c -d p5`: five arguments and
four keys. -/
theorem C20_no_token_counted_twice_witness :
    ((∃ s rest, ["-a", "p1", "p2", "p3", "-b", "p4", "-c", "-d", "p5"] = s :: rest ∧
        IsSwitch (some s) = true) ∧
      "" ∉ ["-a", "p1", "p2", "p3", "-b", "p4", "-c", "-d", "p5"] ∧
      (["-a", "p1", "p2", "p3", "-b", "p4", "-c", "-d", "p5"].filter
        (fun t => IsSwitch (some t))).Nodup) ∧
    (((SplitLine [] ("app" :: ["-a", "p1", "p2", "p3", "-b", "p4", "-c", "-d", "p5"])).1.map
        (fun e => e.2.m_strings.length)).sum =
      (["-a", "p1", "p2", "p3", "-b", "p4", "-c", "-d", "p5"].filter
        (fun t => !IsSwitch (some t))).length ∧
    (keys (SplitLine [] ("app" :: ["-a", "p1", "p2", "p3", "-b", "p4", "-c", "-d", "p5"])).1).length =
      (["-a", "p1", "p2", "p3", "-b", "p4", "-c", "-d", "p5"].filter
        (fun t => IsSwitch (some t))).length) :=
  ⟨⟨⟨"-a", ["p1", "p2", "p3", "-b", "p4", "-c", "-d", "p5"], rfl, by decide⟩,
      by decide, by decide⟩,
    (C20_no_token_counted_twice [] "app"
      ["-a", "p1", "p2", "p3", "-b", "p4", "-c", "-d", "p5"]).2.2
      ⟨"-a", ["p1", "p2", "p3", "-b", "p4", "-c", "-d", "p5"], rfl, by decide⟩
      (by decide) (by decide)⟩

end CmdLine
